import Mathlib

/-!
Verification of the Chemharp/chemfiles Python binding and of the trajectory
engine it wraps.

The repository itself contains the binding layer (`chemfiles/frame.py`) and
its test suite.  The engine behind the binding (the XYZ codec, the
`Trajectory` controller and the diagnostics subsystem) is not part of the
repository sources; where a property is decided by that engine, the
corresponding definitions below are modelled from the specification, and
every such definition says so in its doc comment.

Layout:
 1. characters, line splitting, decimal digits;
 2. decimal numerals (`Dec`) with printing and parsing;
 3. the XYZ codec (frame blocks, whole files) and its round-trip lemmas;
 4. the engine data model (`UnitCell`, topology, `EngineFrame`) and the
    `Trajectory` controller for reading, writing and overrides;
 5. the diagnostics subsystem (last error, warning callback) and `open`;
 6. the shallow embedding of `Frame.set_positions` / `Frame.set_velocities`
    from `chemfiles/frame.py`;
 7. the claim theorems, witnesses and counterexamples.
-/

/-! ### 1. Characters, line splitting, digits -/

def nlChar : Char := Char.ofNat 10

def spaceChar : Char := Char.ofNat 32

def dotChar : Char := Char.ofNat 46

def minusChar : Char := Char.ofNat 45

def squoteChar : Char := Char.ofNat 39

/-- Split a character list at every occurrence of `c`, keeping empty pieces,
exactly as a text reader splits a file into lines. -/
def splitOnChar (c : Char) : List Char → List (List Char)
  | [] => [[]]
  | x :: xs =>
    match splitOnChar c xs with
    | [] => [[]]
    | l :: ls => if x = c then [] :: l :: ls else (x :: l) :: ls

theorem splitOnChar_ne_nil (c : Char) (cs : List Char) : splitOnChar c cs ≠ [] := by
  cases cs with
  | nil => simp [splitOnChar]
  | cons x xs =>
    simp only [splitOnChar]
    cases h : splitOnChar c xs with
    | nil => simp
    | cons l ls =>
      by_cases hx : x = c <;> simp [hx]

theorem splitOnChar_not_mem (c : Char) (l : List Char) (h : c ∉ l) :
    splitOnChar c l = [l] := by
  induction l with
  | nil => rfl
  | cons x xs ih =>
    simp only [List.mem_cons, not_or] at h
    simp only [splitOnChar, ih h.2, if_neg (Ne.symm h.1)]

theorem splitOnChar_append (c : Char) (a rest : List Char) (h : c ∉ a) :
    splitOnChar c (a ++ c :: rest) = a :: splitOnChar c rest := by
  induction a with
  | nil =>
    simp only [List.nil_append, splitOnChar]
    cases hr : splitOnChar c rest with
    | nil => exact absurd hr (splitOnChar_ne_nil c rest)
    | cons l ls => simp
  | cons x xs ih =>
    simp only [List.mem_cons, not_or] at h
    simp only [List.cons_append, splitOnChar, List.append_eq, ih h.2,
      if_neg (Ne.symm h.1)]

/-- The decimal digit character of value `d` (for `d < 10`). -/
def digitChar (d : Nat) : Char := Char.ofNat (48 + d)

theorem digitChar_toNat (d : Nat) (h : d < 10) : (digitChar d).toNat = 48 + d := by
  interval_cases d <;> decide

/-- Fuel-driven production of the decimal digits of `n`, most significant
first; `fuel` bounds the recursion depth. -/
def natChars (fuel n : Nat) : List Char :=
  match fuel with
  | 0 => []
  | fuel + 1 =>
    if n < 10 then [digitChar n]
    else natChars fuel (n / 10) ++ [digitChar (n % 10)]

/-- The decimal numeral of `n`, most significant digit first. -/
def natToChars (n : Nat) : List Char := natChars (n + 1) n

theorem natChars_fuel (fuel₁ fuel₂ n : Nat) (h₁ : n < fuel₁) (h₂ : n < fuel₂) :
    natChars fuel₁ n = natChars fuel₂ n := by
  induction n using Nat.strong_induction_on generalizing fuel₁ fuel₂ with
  | _ n ih =>
    cases fuel₁ with
    | zero => omega
    | succ f₁ =>
      cases fuel₂ with
      | zero => omega
      | succ f₂ =>
        simp only [natChars]
        by_cases hn : n < 10
        · simp [hn]
        · simp only [if_neg hn]
          rw [ih (n / 10) (by omega) f₁ f₂ (by omega) (by omega)]

theorem natToChars_eq (n : Nat) :
    natToChars n = if n < 10 then [digitChar n]
      else natToChars (n / 10) ++ [digitChar (n % 10)] := by
  by_cases hn : n < 10
  · simp [natToChars, natChars, hn]
  · rw [if_neg hn]
    have h1 : natToChars n = natChars n (n / 10) ++ [digitChar (n % 10)] := by
      simp only [natToChars, natChars]
      rw [if_neg hn]
    rw [h1, natChars_fuel n (n / 10 + 1) (n / 10) (by omega) (by omega)]
    rfl

theorem natToChars_ne_nil (n : Nat) : natToChars n ≠ [] := by
  rw [natToChars_eq]
  by_cases hn : n < 10 <;> simp [hn]

theorem mem_natToChars (n : Nat) (c : Char) (h : c ∈ natToChars n) :
    ∃ d, d < 10 ∧ c = digitChar d := by
  induction n using Nat.strong_induction_on with
  | _ n ih =>
    rw [natToChars_eq] at h
    by_cases hn : n < 10
    · rw [if_pos hn] at h
      simp only [List.mem_singleton] at h
      exact ⟨n, hn, h⟩
    · rw [if_neg hn] at h
      rcases List.mem_append.mp h with h | h
      · exact ih (n / 10) (by omega) h
      · simp only [List.mem_singleton] at h
        exact ⟨n % 10, by omega, h⟩

theorem mem_natToChars_toNat (n : Nat) (c : Char) (h : c ∈ natToChars n) :
    48 ≤ c.toNat ∧ c.toNat ≤ 57 := by
  obtain ⟨d, hd, rfl⟩ := mem_natToChars n c h
  rw [digitChar_toNat d hd]
  omega

/-- Accumulating decimal reader: fails on the first non-digit character. -/
def digitsAcc (acc : Nat) : List Char → Option Nat
  | [] => some acc
  | c :: cs =>
    if 48 ≤ c.toNat ∧ c.toNat ≤ 57 then digitsAcc (acc * 10 + (c.toNat - 48)) cs
    else none

/-- Read a (non-empty, all-digit) decimal numeral. -/
def charsToNat (cs : List Char) : Option Nat :=
  match cs with
  | [] => none
  | _ => digitsAcc 0 cs

theorem digitsAcc_append (acc : Nat) (xs ys : List Char) :
    digitsAcc acc (xs ++ ys) =
      match digitsAcc acc xs with
      | some a => digitsAcc a ys
      | none => none := by
  induction xs generalizing acc with
  | nil => simp [digitsAcc]
  | cons x xs ih =>
    simp only [List.cons_append, digitsAcc, List.append_eq]
    by_cases hx : 48 ≤ x.toNat ∧ x.toNat ≤ 57
    · rw [if_pos hx, if_pos hx, ih]
    · rw [if_neg hx, if_neg hx]

theorem digitsAcc_natToChars (n acc : Nat) :
    digitsAcc acc (natToChars n) = some (acc * 10 ^ (natToChars n).length + n) := by
  induction n using Nat.strong_induction_on generalizing acc with
  | _ n ih =>
    rw [natToChars_eq]
    by_cases hn : n < 10
    · rw [if_pos hn]
      simp only [digitsAcc, digitChar_toNat n hn]
      rw [if_pos (by omega)]
      simp only [digitsAcc, List.length_singleton, pow_one]
      congr 1
      omega
    · rw [if_neg hn]
      rw [digitsAcc_append]
      rw [ih (n / 10) (by omega) acc]
      simp only [digitsAcc, digitChar_toNat (n % 10) (by omega)]
      rw [if_pos (by omega)]
      simp only [digitsAcc, List.length_append, List.length_singleton]
      congr 1
      have hmod : 48 + n % 10 - 48 = n % 10 := by omega
      rw [hmod]
      have : (acc * 10 ^ (natToChars (n / 10)).length + n / 10) * 10 + n % 10 =
          acc * (10 ^ (natToChars (n / 10)).length * 10) + (n / 10 * 10 + n % 10) := by
        ring
      rw [this, pow_succ]
      congr 1
      omega

theorem charsToNat_natToChars (n : Nat) : charsToNat (natToChars n) = some n := by
  have hne := natToChars_ne_nil n
  unfold charsToNat
  cases h : natToChars n with
  | nil => exact absurd h hne
  | cons c cs =>
    rw [← h, digitsAcc_natToChars n 0]
    simp

/-! ### 2. Decimal numerals

The engine serializes float32 coordinates as decimal text.  The embedding
represents such a serialized coordinate exactly, as a mantissa together
with the number of digits printed after the decimal point: `⟨m, e⟩`
denotes `m / 10 ^ e`. -/

structure Dec where
  mantissa : Int
  exponent : Nat
deriving DecidableEq

/-- Left-pad a digit string with zeros up to width `e`. -/
def padDigits (e : Nat) (cs : List Char) : List Char :=
  List.replicate (e - cs.length) (digitChar 0) ++ cs

/-- Print the magnitude `s / 10 ^ e` in plain decimal form. -/
def printNatDec (s e : Nat) : List Char :=
  if e = 0 then natToChars s
  else natToChars (s / 10 ^ e) ++ dotChar :: padDigits e (natToChars (s % 10 ^ e))

/-- Print a `Dec` in plain decimal form, with a leading minus sign for
negative mantissas. -/
def printDec (d : Dec) : List Char :=
  (if d.mantissa < 0 then [minusChar] else []) ++ printNatDec d.mantissa.natAbs d.exponent

/-- Parse an unsigned plain decimal numeral. -/
def parseUDec (cs : List Char) : Option Dec :=
  match splitOnChar dotChar cs with
  | [ip] =>
    match charsToNat ip with
    | some m => some ⟨(m : Int), 0⟩
    | none => none
  | [ip, fp] =>
    match charsToNat ip, charsToNat fp with
    | some i, some f => some ⟨((i * 10 ^ fp.length + f : Nat) : Int), fp.length⟩
    | _, _ => none
  | _ => none

/-- Parse a plain decimal numeral with an optional leading minus sign. -/
def parseDec (cs : List Char) : Option Dec :=
  match cs with
  | [] => none
  | c :: rest =>
    if c = minusChar then (parseUDec rest).map (fun d => ⟨-d.mantissa, d.exponent⟩)
    else parseUDec (c :: rest)

theorem not_mem_natToChars (n : Nat) (c : Char) (h : c.toNat < 48 ∨ 57 < c.toNat) :
    c ∉ natToChars n := by
  intro hmem
  have := mem_natToChars_toNat n c hmem
  omega

theorem length_natToChars_le (m k : Nat) (hk : 1 ≤ k) (hm : m < 10 ^ k) :
    (natToChars m).length ≤ k := by
  induction m using Nat.strong_induction_on generalizing k with
  | _ m ih =>
    rw [natToChars_eq]
    by_cases h : m < 10
    · simpa [h] using hk
    · rw [if_neg h]
      have hk2 : 2 ≤ k := by
        by_contra hcon
        have : k = 1 := by omega
        subst this
        simp at hm
        omega
      have hdiv : m / 10 < 10 ^ (k - 1) := by
        rw [Nat.div_lt_iff_lt_mul (by norm_num)]
        calc m < 10 ^ k := hm
        _ = 10 ^ (k - 1) * 10 := by
            rw [← pow_succ]
            congr 1
            omega
      have := ih (m / 10) (by omega) (k - 1) (by omega) hdiv
      simp only [List.length_append, List.length_singleton]
      omega

theorem digitsAcc_replicate_zero (j : Nat) :
    digitsAcc 0 (List.replicate j (digitChar 0)) = some 0 := by
  induction j with
  | zero => rfl
  | succ j ih =>
    simp only [List.replicate_succ, digitsAcc, digitChar_toNat 0 (by norm_num)]
    rw [if_pos (by omega)]
    simpa using ih

theorem charsToNat_eq_digitsAcc (cs : List Char) (h : cs ≠ []) :
    charsToNat cs = digitsAcc 0 cs := by
  cases cs with
  | nil => exact absurd rfl h
  | cons c rest => rfl

theorem charsToNat_padDigits (e f : Nat) :
    charsToNat (padDigits e (natToChars f)) = some f := by
  have hne : padDigits e (natToChars f) ≠ [] := by
    unfold padDigits
    intro hcon
    rcases List.append_eq_nil.mp hcon with ⟨_, h2⟩
    exact natToChars_ne_nil f h2
  rw [charsToNat_eq_digitsAcc _ hne]
  unfold padDigits
  rw [digitsAcc_append, digitsAcc_replicate_zero]
  have := charsToNat_natToChars f
  rwa [charsToNat_eq_digitsAcc _ (natToChars_ne_nil f)] at this

theorem length_padDigits (e : Nat) (cs : List Char) (h : cs.length ≤ e) :
    (padDigits e cs).length = e := by
  unfold padDigits
  simp only [List.length_append, List.length_replicate]
  omega

theorem not_mem_padDigits (e f : Nat) (c : Char) (h : c.toNat < 48 ∨ 57 < c.toNat) :
    c ∉ padDigits e (natToChars f) := by
  unfold padDigits
  intro hmem
  rcases List.mem_append.mp hmem with hm | hm
  · have := List.eq_of_mem_replicate hm
    subst this
    rw [digitChar_toNat 0 (by norm_num)] at h
    omega
  · exact not_mem_natToChars f c h hm

theorem parseUDec_printNatDec (s e : Nat) : parseUDec (printNatDec s e) = some ⟨(s : Int), e⟩ := by
  unfold printNatDec
  by_cases he : e = 0
  · subst he
    rw [if_pos rfl]
    unfold parseUDec
    rw [splitOnChar_not_mem dotChar (natToChars s) (not_mem_natToChars s dotChar (by decide))]
    simp [charsToNat_natToChars s]
  · rw [if_neg he]
    have hfe : (natToChars (s % 10 ^ e)).length ≤ e :=
      length_natToChars_le (s % 10 ^ e) e (by omega)
        (Nat.mod_lt s (Nat.pos_pow_of_pos e (by norm_num)))
    have hlen := length_padDigits e (natToChars (s % 10 ^ e)) hfe
    unfold parseUDec
    rw [splitOnChar_append dotChar _ _
      (not_mem_natToChars (s / 10 ^ e) dotChar (by decide))]
    rw [splitOnChar_not_mem dotChar _
      (not_mem_padDigits e (s % 10 ^ e) dotChar (by decide))]
    simp only [charsToNat_natToChars, charsToNat_padDigits]
    rw [hlen]
    simp only [Option.some.injEq, Dec.mk.injEq, Nat.cast_inj]
    refine ⟨?_, trivial⟩
    conv_rhs => rw [← Nat.div_add_mod s (10 ^ e)]
    ring

theorem printNatDec_head_digit (s e : Nat) :
    ∃ c cs, printNatDec s e = c :: cs ∧ 48 ≤ c.toNat ∧ c.toNat ≤ 57 := by
  by_cases he : e = 0
  · have hpr : printNatDec s e = natToChars s := by
      unfold printNatDec
      rw [if_pos he]
    cases h : natToChars s with
    | nil => exact absurd h (natToChars_ne_nil s)
    | cons c cs =>
      refine ⟨c, cs, ?_, ?_⟩
      · rw [hpr, h]
      · exact mem_natToChars_toNat s c (by rw [h]; exact List.mem_cons_self c cs)
  · have hpr : printNatDec s e =
        natToChars (s / 10 ^ e) ++ dotChar :: padDigits e (natToChars (s % 10 ^ e)) := by
      unfold printNatDec
      rw [if_neg he]
    cases h : natToChars (s / 10 ^ e) with
    | nil => exact absurd h (natToChars_ne_nil _)
    | cons c cs =>
      refine ⟨c, cs ++ dotChar :: padDigits e (natToChars (s % 10 ^ e)), ?_, ?_⟩
      · rw [hpr, h]
        rfl
      · exact mem_natToChars_toNat _ c (by rw [h]; exact List.mem_cons_self c cs)

/-- Printing then parsing a decimal value recovers it exactly. -/
theorem parseDec_printDec (d : Dec) : parseDec (printDec d) = some d := by
  obtain ⟨m, e⟩ := d
  unfold printDec
  by_cases hm : m < 0
  · rw [if_pos hm]
    rw [List.singleton_append]
    simp only [parseDec, if_true]
    rw [parseUDec_printNatDec]
    simp only [Option.map_some', Option.some.injEq, Dec.mk.injEq]
    constructor
    · omega
    · trivial
  · rw [if_neg hm]
    rw [List.nil_append]
    obtain ⟨c, cs, hp, hc1, hc2⟩ := printNatDec_head_digit m.natAbs e
    have hcne : c ≠ minusChar := by
      intro hcm
      rw [hcm] at hc1
      revert hc1
      decide
    rw [hp]
    simp only [parseDec]
    rw [if_neg hcne]
    rw [← hp, parseUDec_printNatDec]
    simp only [Option.some.injEq, Dec.mk.injEq]
    constructor
    · omega
    · trivial

theorem mem_printNatDec_toNat (s e : Nat) (c : Char) (h : c ∈ printNatDec s e) :
    46 ≤ c.toNat ∧ c.toNat ≤ 57 := by
  unfold printNatDec at h
  by_cases he : e = 0
  · rw [if_pos he] at h
    have := mem_natToChars_toNat s c h
    omega
  · rw [if_neg he] at h
    rcases List.mem_append.mp h with h | h
    · have := mem_natToChars_toNat (s / 10 ^ e) c h
      omega
    · rcases List.mem_cons.mp h with h | h
      · subst h
        constructor <;> decide
      · unfold padDigits at h
        rcases List.mem_append.mp h with h | h
        · have := List.eq_of_mem_replicate h
          subst this
          rw [digitChar_toNat 0 (by norm_num)]
          omega
        · have := mem_natToChars_toNat (s % 10 ^ e) c h
          omega

theorem mem_printDec_toNat (d : Dec) (c : Char) (h : c ∈ printDec d) :
    45 ≤ c.toNat ∧ c.toNat ≤ 57 := by
  unfold printDec at h
  rcases List.mem_append.mp h with h | h
  · by_cases hm : d.mantissa < 0
    · rw [if_pos hm] at h
      rcases List.mem_singleton.mp h with rfl
      constructor <;> decide
    · rw [if_neg hm] at h
      simp at h
  · have := mem_printNatDec_toNat d.mantissa.natAbs d.exponent c h
    omega

/-! ### 3. The XYZ codec -/

/-- One atom record of an XYZ frame: a name and three coordinates. -/
structure XYZAtomLine where
  name : List Char
  x : Dec
  y : Dec
  z : Dec
deriving DecidableEq

/-- Modelled from the spec: an XYZ frame is the ordered list of its atom
records (§6 file-format surface); the codec itself is not in the
repository sources. -/
abbrev XYZFrame := List XYZAtomLine

/-- Modelled from the spec: the fixed library-identifying comment string the
writer puts on line 2 of every frame block (§6, `test_write` fixture). -/
def commentChars : List Char := "Written by Chemharp".data

/-- Modelled from the spec: one `<name> <x> <y> <z>` atom line, fields
separated by single spaces (§6). -/
def writeAtomLine (a : XYZAtomLine) : List Char :=
  a.name ++ spaceChar ::
    (printDec a.x ++ spaceChar :: (printDec a.y ++ spaceChar :: printDec a.z))

/-- Modelled from the spec: the lines of one XYZ frame block — decimal atom
count, comment, then one line per atom (§6). -/
def writeFrameLines (f : XYZFrame) : List (List Char) :=
  natToChars f.length :: commentChars :: f.map writeAtomLine

/-- Terminate every line with a newline character. -/
def linesChars (ls : List (List Char)) : List Char :=
  ls.foldr (fun l acc => l ++ nlChar :: acc) []

/-- Modelled from the spec: the byte block a single `write(frame)` call
appends to the stream. -/
def writeBlock (f : XYZFrame) : List Char := linesChars (writeFrameLines f)

/-- All lines of a multi-frame XYZ file, in order. -/
def allFrameLines (fs : List XYZFrame) : List (List Char) :=
  (fs.map writeFrameLines).flatten

/-- Modelled from the spec: a whole XYZ file is the concatenation of its
frame blocks, with no separator beyond the next atom-count line (§6). -/
def writeFile (fs : List XYZFrame) : List Char := linesChars (allFrameLines fs)

/-- Modelled from the spec: parse one atom line of an XYZ frame (§6). -/
def parseAtomLine (l : List Char) : Option XYZAtomLine :=
  match splitOnChar spaceChar l with
  | [name, xs, ys, zs] =>
    (parseDec xs).bind fun x =>
      (parseDec ys).bind fun y =>
        (parseDec zs).map fun z => ⟨name, x, y, z⟩
  | _ => none

/-- Parse a list of atom lines. -/
def parseAtoms : List (List Char) → Option (List XYZAtomLine)
  | [] => some []
  | l :: ls =>
    (parseAtomLine l).bind fun a => (parseAtoms ls).map fun rest => a :: rest

/-- Modelled from the spec: split an XYZ file (given as its list of lines)
into frame blocks; `fuel` bounds the recursion depth.  A lone trailing
empty line is the file's final newline. -/
def parseFramesAux (fuel : Nat) (lines : List (List Char)) : Option (List XYZFrame) :=
  match fuel with
  | 0 => none
  | fuel + 1 =>
    match lines with
    | [] => some []
    | [l] => if l = [] then some [] else none
    | countLine :: _ :: rest =>
      (charsToNat countLine).bind fun n =>
        if n ≤ rest.length then
          (parseAtoms (rest.take n)).bind fun atoms =>
            (parseFramesAux fuel (rest.drop n)).map fun frames => atoms :: frames
        else none

/-- Modelled from the spec: parse all frame blocks of an XYZ file. -/
def parseFrames (lines : List (List Char)) : Option (List XYZFrame) :=
  parseFramesAux (lines.length + 1) lines

/-- Well-formed atom names carry no newline and no space. -/
def goodNameChar (ch : Char) : Bool := !(ch == nlChar) && !(ch == spaceChar)

def wfName (name : List Char) : Bool := name.all goodNameChar

def wfFrame (f : XYZFrame) : Bool := f.all (fun a => wfName a.name)

def wfFrames (fs : List XYZFrame) : Bool := fs.all wfFrame

theorem linesChars_append (a b : List (List Char)) :
    linesChars (a ++ b) = linesChars a ++ linesChars b := by
  induction a with
  | nil => rfl
  | cons l ls ih =>
    simp only [List.cons_append, linesChars, List.foldr_cons] at ih ⊢
    rw [ih]
    simp [List.append_assoc]

theorem splitOnChar_linesChars (ls : List (List Char))
    (h : ∀ l ∈ ls, nlChar ∉ l) :
    splitOnChar nlChar (linesChars ls) = ls ++ [[]] := by
  induction ls with
  | nil => rfl
  | cons l ls ih =>
    have hl : nlChar ∉ l := h l (List.mem_cons_self l ls)
    have hrest : ∀ x ∈ ls, nlChar ∉ x := fun x hx => h x (List.mem_cons_of_mem l hx)
    show splitOnChar nlChar (l ++ nlChar :: linesChars ls) = (l :: ls) ++ [[]]
    rw [splitOnChar_append nlChar l (linesChars ls) hl, ih hrest]
    rfl

theorem nlChar_not_mem_natToChars (n : Nat) : nlChar ∉ natToChars n :=
  not_mem_natToChars n nlChar (by decide)

theorem nlChar_not_mem_printDec (d : Dec) : nlChar ∉ printDec d := by
  intro h
  have hmem := mem_printDec_toNat d nlChar h
  have h10 : nlChar.toNat = 10 := by decide
  omega

theorem spaceChar_not_mem_printDec (d : Dec) : spaceChar ∉ printDec d := by
  intro h
  have hmem := mem_printDec_toNat d spaceChar h
  have h32 : spaceChar.toNat = 32 := by decide
  omega

theorem nlChar_not_mem_writeAtomLine (a : XYZAtomLine) (h : wfName a.name = true) :
    nlChar ∉ writeAtomLine a := by
  intro hmem
  unfold writeAtomLine at hmem
  rcases List.mem_append.mp hmem with hm | hm
  · have hg := List.all_eq_true.mp h nlChar hm
    revert hg
    decide
  · rcases List.mem_cons.mp hm with hm | hm
    · exact absurd hm (by decide)
    · rcases List.mem_append.mp hm with hm | hm
      · exact nlChar_not_mem_printDec a.x hm
      · rcases List.mem_cons.mp hm with hm | hm
        · exact absurd hm (by decide)
        · rcases List.mem_append.mp hm with hm | hm
          · exact nlChar_not_mem_printDec a.y hm
          · rcases List.mem_cons.mp hm with hm | hm
            · exact absurd hm (by decide)
            · exact nlChar_not_mem_printDec a.z hm

theorem no_nl_in_frame_lines (fs : List XYZFrame) (hwf : wfFrames fs = true) :
    ∀ l ∈ allFrameLines fs, nlChar ∉ l := by
  intro l hl
  unfold allFrameLines at hl
  rcases List.mem_flatten.mp hl with ⟨block, hb, hlb⟩
  rcases List.mem_map.mp hb with ⟨f, hf, rfl⟩
  have hwff : wfFrame f = true := List.all_eq_true.mp hwf f hf
  unfold writeFrameLines at hlb
  rcases List.mem_cons.mp hlb with rfl | hlb
  · exact nlChar_not_mem_natToChars f.length
  · rcases List.mem_cons.mp hlb with rfl | hlb
    · decide
    · rcases List.mem_map.mp hlb with ⟨a, ha, rfl⟩
      exact nlChar_not_mem_writeAtomLine a (List.all_eq_true.mp hwff a ha)

theorem parseAtomLine_writeAtomLine (a : XYZAtomLine) (h : wfName a.name = true) :
    parseAtomLine (writeAtomLine a) = some a := by
  obtain ⟨name, x, y, z⟩ := a
  have hname : spaceChar ∉ name := by
    intro hmem
    have hg := List.all_eq_true.mp h spaceChar hmem
    revert hg
    decide
  unfold parseAtomLine writeAtomLine
  rw [splitOnChar_append spaceChar name _ hname]
  rw [splitOnChar_append spaceChar (printDec x) _ (spaceChar_not_mem_printDec x)]
  rw [splitOnChar_append spaceChar (printDec y) _ (spaceChar_not_mem_printDec y)]
  rw [splitOnChar_not_mem spaceChar (printDec z) (spaceChar_not_mem_printDec z)]
  simp [parseDec_printDec]

theorem parseAtoms_write (atoms : List XYZAtomLine) (h : wfFrame atoms = true) :
    parseAtoms (atoms.map writeAtomLine) = some atoms := by
  induction atoms with
  | nil => rfl
  | cons a rest ih =>
    have hcons := h
    rw [wfFrame, List.all_cons, Bool.and_eq_true] at hcons
    simp only [List.map_cons, parseAtoms]
    rw [parseAtomLine_writeAtomLine a hcons.1]
    simp only [Option.some_bind]
    rw [ih hcons.2]
    rfl

theorem parseFramesAux_writeFile (fs : List XYZFrame) :
    ∀ fuel, (allFrameLines fs ++ [[]]).length < fuel → wfFrames fs = true →
      parseFramesAux fuel (allFrameLines fs ++ [[]]) = some fs := by
  induction fs with
  | nil =>
    intro fuel hf _
    cases fuel with
    | zero => omega
    | succ f => rfl
  | cons x fs ih =>
    intro fuel hf hwf
    have hcons := hwf
    rw [wfFrames, List.all_cons, Bool.and_eq_true] at hcons
    have hexp : allFrameLines (x :: fs) ++ [[]] =
        natToChars x.length :: commentChars ::
          (x.map writeAtomLine ++ (allFrameLines fs ++ [[]])) := by
      simp [allFrameLines, writeFrameLines, List.append_assoc]
    have hlens : (allFrameLines (x :: fs) ++ [[]]).length =
        2 + x.length + (allFrameLines fs ++ [[]]).length := by
      rw [hexp]
      simp only [List.length_cons, List.length_append, List.length_map]
      omega
    cases fuel with
    | zero => omega
    | succ f =>
      rw [hexp]
      simp only [parseFramesAux]
      rw [charsToNat_natToChars x.length]
      simp only [Option.some_bind]
      have hmaplen : (x.map writeAtomLine).length = x.length := List.length_map x writeAtomLine
      rw [if_pos (by rw [List.length_append, hmaplen]; omega)]
      have htake : (x.map writeAtomLine ++ (allFrameLines fs ++ [[]])).take x.length
          = x.map writeAtomLine := by
        rw [← hmaplen]
        exact List.take_left _ _
      have hdrop : (x.map writeAtomLine ++ (allFrameLines fs ++ [[]])).drop x.length
          = allFrameLines fs ++ [[]] := by
        rw [← hmaplen]
        exact List.drop_left _ _
      rw [htake, hdrop]
      rw [parseAtoms_write x hcons.1]
      simp only [Option.some_bind]
      rw [ih f (by omega) hcons.2]
      rfl

/-- Round trip of the XYZ codec: a well-formed list of frames written out
then split into lines and re-parsed is recovered exactly. -/
theorem parseFrames_writeFile (fs : List XYZFrame) (hwf : wfFrames fs = true) :
    parseFrames (splitOnChar nlChar (writeFile fs)) = some fs := by
  rw [writeFile, splitOnChar_linesChars (allFrameLines fs) (no_nl_in_frame_lines fs hwf)]
  unfold parseFrames
  exact parseFramesAux_writeFile fs _ (by omega) hwf

/-! ### 4. Engine data model and the Trajectory controller -/

/-- Modelled from the spec: a unit cell, reduced to its three lengths
(§3); the degenerate cell (all lengths zero) is the infinite cell. -/
structure UnitCell where
  a : Dec
  b : Dec
  c : Dec
deriving DecidableEq

def infiniteCell : UnitCell := ⟨⟨0, 0⟩, ⟨0, 0⟩, ⟨0, 0⟩⟩

/-- Modelled from the spec: the part of an engine atom the claims touch —
its name (§3). -/
structure EngineAtom where
  name : List Char
deriving DecidableEq

/-- Modelled from the spec: a topology's ordered atom list (§3). -/
abbrev EngineTopology := List EngineAtom

/-- Modelled from the spec: one simulation snapshot — positions, a
topology and a unit cell (§3). -/
structure EngineFrame where
  positions : List (Dec × Dec × Dec)
  topology : EngineTopology
  cell : UnitCell
deriving DecidableEq

def xyzPositions (f : XYZFrame) : List (Dec × Dec × Dec) :=
  f.map (fun a => (a.x, a.y, a.z))

def xyzTopology (f : XYZFrame) : EngineTopology := f.map (fun a => ⟨a.name⟩)

/-- Modelled from the spec: the XYZ records of an engine frame, pairing
topology names with position rows. -/
def engineFrameToXYZ (f : EngineFrame) : XYZFrame :=
  List.zipWith
    (fun (a : EngineAtom) (p : Dec × Dec × Dec) => XYZAtomLine.mk a.name p.1 p.2.1 p.2.2)
    f.topology f.positions

/-- Modelled from the spec: the error kinds of the engine (§7). -/
inductive ChemErr
  | fileError (msg : List Char)
  | formatError (msg : List Char)
  | argumentError (msg : List Char)
  | outOfRange
  | endOfFile
deriving DecidableEq

/-- Modelled from the spec: a read-mode Trajectory — the underlying file
content, the sequential cursor, and the optional cell/topology overrides
(§4.6).  The file content is never mutated by reads or overrides. -/
structure Trajectory where
  content : List Char
  cursor : Nat
  cellOverride : Option UnitCell
  topologyOverride : Option EngineTopology
deriving DecidableEq

def Trajectory.frames (t : Trajectory) : List XYZFrame :=
  (parseFrames (splitOnChar nlChar t.content)).getD []

/-- Modelled from the spec: `nsteps()` reports the total frame count as
computed by the codec from the file (§4.6). -/
def Trajectory.nsteps (t : Trajectory) : Nat := t.frames.length

/-- Modelled from the spec: install a unit-cell override (§4.6). -/
def Trajectory.set_cell (t : Trajectory) (c : UnitCell) : Trajectory :=
  { t with cellOverride := some c }

/-- Modelled from the spec: install a topology override (§4.6). -/
def Trajectory.set_topology (t : Trajectory) (top : EngineTopology) : Trajectory :=
  { t with topologyOverride := some top }

/-- Modelled from the spec: the frame returned to the caller — the
cell/topology overrides stand in for the metadata the XYZ format lacks
(§4.6). -/
def Trajectory.mkFrame (t : Trajectory) (f : XYZFrame) : EngineFrame :=
  ⟨xyzPositions f, t.topologyOverride.getD (xyzTopology f),
    t.cellOverride.getD infiniteCell⟩

/-- Modelled from the spec: `read()` returns the frame at the cursor and
advances it, failing with EndOfFile when exhausted (§4.6). -/
def Trajectory.read (t : Trajectory) : Except ChemErr (EngineFrame × Trajectory) :=
  match t.frames[t.cursor]? with
  | some f => .ok (t.mkFrame f, { t with cursor := t.cursor + 1 })
  | none => .error .endOfFile

/-- Modelled from the spec: `read_step(n)` reads absolute step `n`,
failing with OutOfRange if `n ≥ nsteps()` (§4.6). -/
def Trajectory.read_step (t : Trajectory) (n : Nat) :
    Except ChemErr (EngineFrame × Trajectory) :=
  match t.frames[n]? with
  | some f => .ok (t.mkFrame f, { t with cursor := n + 1 })
  | none => .error .outOfRange

/-- The result of the `(n+1)`-st sequential `read()` call. -/
def Trajectory.readTimes (t : Trajectory) : Nat → Except ChemErr (EngineFrame × Trajectory)
  | 0 => t.read
  | n + 1 =>
    match t.read with
    | .ok (_, t2) => t2.readTimes n
    | .error e => .error e

/-- Modelled from the spec: a write- or append-mode Trajectory, reduced
to the bytes written so far (§4.6). -/
structure WriteTrajectory where
  content : List Char
deriving DecidableEq

/-- Modelled from the spec: the ArgumentError message for a
topology/positions atom-count mismatch on write (§4.6, §7). -/
def mismatchMsg : List Char :=
  "topology and positions do not have the same number of atoms".data

/-- Modelled from the spec: `write(frame)` requires the topology atom
count to equal the number of position rows, failing with ArgumentError
otherwise; it appends one frame block as a unit, and a failed validation
emits no bytes (§4.6, §7). -/
def WriteTrajectory.write (t : WriteTrajectory) (f : EngineFrame) :
    WriteTrajectory × Option ChemErr :=
  if f.topology.length = f.positions.length then
    (⟨t.content ++ writeBlock (engineFrameToXYZ f)⟩, none)
  else (t, some (.argumentError mismatchMsg))

/-! ### 5. Diagnostics and `open` -/

/-- Modelled from the spec: the diagnostics subsystem — the process-wide
last-error text, the messages delivered (in order) to the installed
warning callback, and whether that callback itself raises when invoked.
The boundary swallows callback exceptions, so delivery never depends on
`callbackRaises` (§6, §7, tests/utils.py). -/
structure Diagnostics where
  lastError : List Char
  warnings : List (List Char)
  callbackRaises : Bool
deriving DecidableEq

/-- Modelled from the spec: every failure updates the last-error text and
routes the message to the warning callback before surfacing (§7). -/
def recordFailure (d : Diagnostics) (msg : List Char) : Diagnostics :=
  { d with lastError := msg, warnings := d.warnings ++ [msg] }

inductive FormatName
  | xyz
deriving DecidableEq

/-- Modelled from the spec: the message for a path without an extension
when no explicit format name is given (§8.5, tests/utils.py). -/
def noExtensionMsg (path : List Char) : List Char :=
  "file at ".data ++ squoteChar :: path ++ squoteChar ::
    " does not have an extension, provide a format name to read it".data

/-- Modelled from the spec: the message for an unknown extension (§4.5). -/
def unknownFormatMsg (path : List Char) : List Char :=
  "can not find a format associated with the file at ".data ++
    squoteChar :: path ++ [squoteChar]

/-- The extension of a path: the characters after the last dot, if any. -/
def extensionOf (path : List Char) : Option (List Char) :=
  if path.contains dotChar then
    some ((path.reverse.takeWhile (fun ch => !(ch == dotChar))).reverse)
  else none

/-- Modelled from the spec: open a trajectory in read mode — resolve the
codec from the explicit format name or the path's extension; with no
extension and no explicit name, fail with FormatError, updating the last
error and notifying the warning callback (§4.5, §4.6, §7). -/
def openTrajectory (path : List Char) (explicitFormat : Option FormatName)
    (content : List Char) (d : Diagnostics) :
    Except ChemErr Trajectory × Diagnostics :=
  match explicitFormat with
  | some .xyz => (.ok ⟨content, 0, none, none⟩, d)
  | none =>
    match extensionOf path with
    | some ext =>
      if ext = "xyz".data then (.ok ⟨content, 0, none, none⟩, d)
      else
        (.error (.formatError (unknownFormatMsg path)),
          recordFailure d (unknownFormatMsg path))
    | none =>
      (.error (.formatError (noExtensionMsg path)),
        recordFailure d (noExtensionMsg path))

/-! ### 6. The binding layer: `chemfiles/frame.py` -/

inductive DType
  | float32
  | float64
  | int32
  | int64
deriving DecidableEq

/-- A numpy array as the binding sees it: shape tuple, element type and
flat data (element values abstracted to integers — only shape and dtype
drive the binding's validation). -/
structure NpArray where
  shape : List Nat
  dtype : DType
  data : List Int
deriving DecidableEq

/-- A raised Python exception. -/
inductive PyExc
  | indexError (msg : List Char)
  | argumentError (msg : List Char)
deriving DecidableEq

/-- The Python `Frame` object, as the state behind its native handle: the
positions and velocities arrays last forwarded through the binding. -/
structure Frame where
  nativePositions : NpArray
  nativeVelocities : NpArray
deriving DecidableEq

def tupleIndexMsg : List Char := "tuple index out of range".data

def positionsShapeMsg : List Char := "The positions array should have a Nx3 shape".data

def positionsDtypeMsg : List Char := "The positions array should contain float32".data

def velocitiesShapeMsg : List Char := "The velocities array should have a Nx3 shape".data

def velocitiesDtypeMsg : List Char := "The velocities array should contain float32".data

/-- `Frame.set_positions` from `chemfiles/frame.py`: it reads `shape[1]`
unguarded (an IndexError when the shape tuple has fewer than two
entries), requires `shape[1] == 3` and then dtype float32, and otherwise
forwards the array to `chfl_frame_set_positions`.  The second component
is the exception raised, if any; on an exception the frame is unchanged. -/
def Frame.set_positions (f : Frame) (positions : NpArray) : Frame × Option PyExc :=
  match positions.shape with
  | [] => (f, some (.indexError tupleIndexMsg))
  | [_] => (f, some (.indexError tupleIndexMsg))
  | _ :: d1 :: _ =>
    if d1 ≠ 3 then (f, some (.argumentError positionsShapeMsg))
    else if positions.dtype ≠ DType.float32 then
      (f, some (.argumentError positionsDtypeMsg))
    else ({ f with nativePositions := positions }, none)

/-- `Frame.set_velocities` from `chemfiles/frame.py`: identical
validation, forwarding to `chfl_frame_set_velocities`. -/
def Frame.set_velocities (f : Frame) (velocities : NpArray) : Frame × Option PyExc :=
  match velocities.shape with
  | [] => (f, some (.indexError tupleIndexMsg))
  | [_] => (f, some (.indexError tupleIndexMsg))
  | _ :: d1 :: _ =>
    if d1 ≠ 3 then (f, some (.argumentError velocitiesShapeMsg))
    else if velocities.dtype ≠ DType.float32 then
      (f, some (.argumentError velocitiesDtypeMsg))
    else ({ f with nativeVelocities := velocities }, none)

/-- The spec's words for the shape contract of `set_positions`: the shape
is `N×3` for some `N`. -/
def shapeIsNx3 (shape : List Nat) : Bool :=
  match shape with
  | [_, 3] => true
  | _ => false

/-! ### Supporting lemmas about the engine -/

theorem engineFrameToXYZ_recover (tops : EngineTopology) (pos : List (Dec × Dec × Dec))
    (h : tops.length = pos.length) (cell : UnitCell) :
    xyzPositions (engineFrameToXYZ ⟨pos, tops, cell⟩) = pos ∧
    xyzTopology (engineFrameToXYZ ⟨pos, tops, cell⟩) = tops := by
  unfold engineFrameToXYZ xyzPositions xyzTopology
  induction tops generalizing pos with
  | nil =>
    have : pos = [] := List.length_eq_zero.mp (by simpa using h.symm)
    subst this
    simp
  | cons a rest ih =>
    cases pos with
    | nil => simp at h
    | cons p prest =>
      have hlen : rest.length = prest.length := by simpa using h
      have := ih prest hlen
      simp only [List.zipWith_cons_cons, List.map_cons]
      exact ⟨by rw [this.1], by rw [this.2]⟩

theorem readTimes_ok (n : Nat) :
    ∀ (t : Trajectory) (f : XYZFrame), t.frames[t.cursor + n]? = some f →
      t.readTimes n = .ok (t.mkFrame f, { t with cursor := t.cursor + n + 1 }) := by
  induction n with
  | zero =>
    intro t f h
    rw [Nat.add_zero] at h
    simp only [Trajectory.readTimes, Trajectory.read, h]
  | succ n ih =>
    intro t f h
    have hlt : t.cursor + (n + 1) < t.frames.length := by
      rcases List.getElem?_eq_some.mp h with ⟨hh, _⟩
      exact hh
    have hcur : t.cursor < t.frames.length := by omega
    obtain ⟨f0, hf0⟩ : ∃ f0, t.frames[t.cursor]? = some f0 :=
      ⟨_, List.getElem?_eq_getElem hcur⟩
    simp only [Trajectory.readTimes, Trajectory.read, hf0]
    have harg : ({ t with cursor := t.cursor + 1 } : Trajectory).frames[
        ({ t with cursor := t.cursor + 1 } : Trajectory).cursor + n]? = some f := by
      show t.frames[t.cursor + 1 + n]? = some f
      rw [show t.cursor + 1 + n = t.cursor + (n + 1) by omega]
      exact h
    rw [ih _ f harg]
    show _ = Except.ok (t.mkFrame f, { t with cursor := t.cursor + (n + 1) + 1 })
    simp only [Except.ok.injEq, Prod.mk.injEq, Trajectory.mk.injEq, true_and,
      and_true]
    exact ⟨rfl, by omega⟩

theorem writeFile_singleton (f : XYZFrame) : writeFile [f] = writeBlock f := by
  simp [writeFile, writeBlock, allFrameLines]

/-! ### 7. Claim theorems, witnesses and counterexamples -/

def sampleAtom : XYZAtomLine := ⟨"X".data, ⟨1, 0⟩, ⟨2, 0⟩, ⟨3, 0⟩⟩

def sampleFrame4 : XYZFrame := List.replicate 4 sampleAtom

def sampleFrame6 : XYZFrame := List.replicate 6 ⟨"X".data, ⟨4, 0⟩, ⟨5, 0⟩, ⟨6, 0⟩⟩

def sampleEngineFrame1 : EngineFrame :=
  ⟨List.replicate 4 (⟨1, 0⟩, ⟨2, 0⟩, ⟨3, 0⟩), List.replicate 4 ⟨"X".data⟩, infiniteCell⟩

def sampleEngineFrame2 : EngineFrame :=
  ⟨List.replicate 6 (⟨4, 0⟩, ⟨5, 0⟩, ⟨6, 0⟩), List.replicate 6 ⟨"X".data⟩, infiniteCell⟩

/-- C1: for every valid frame (any atom count, topology matching the
position rows, names without whitespace), writing it through a fresh
write-mode trajectory and re-reading the resulting file via the same XYZ
codec yields a frame with the identical atom count, identical positions
and identical atom names. -/
theorem xyz_write_read_roundtrip (ef : EngineFrame)
    (hlen : ef.topology.length = ef.positions.length)
    (hwf : wfFrame (engineFrameToXYZ ef) = true) :
    (Trajectory.mk (WriteTrajectory.write ⟨[]⟩ ef).1.content 0 none none).read =
      .ok (⟨ef.positions, ef.topology, infiniteCell⟩,
        Trajectory.mk (WriteTrajectory.write ⟨[]⟩ ef).1.content 1 none none) := by
  obtain ⟨pos, tops, cell⟩ := ef
  simp only at hlen hwf
  have hw : (WriteTrajectory.write ⟨[]⟩ ⟨pos, tops, cell⟩).1.content =
      writeBlock (engineFrameToXYZ ⟨pos, tops, cell⟩) := by
    unfold WriteTrajectory.write
    rw [if_pos hlen]
    simp
  have hwfs : wfFrames [engineFrameToXYZ ⟨pos, tops, cell⟩] = true := by
    rw [wfFrames, List.all_cons, hwf]
    rfl
  have hframes :
      parseFrames (splitOnChar nlChar
        (writeBlock (engineFrameToXYZ ⟨pos, tops, cell⟩))) =
      some [engineFrameToXYZ ⟨pos, tops, cell⟩] := by
    rw [← writeFile_singleton]
    exact parseFrames_writeFile _ hwfs
  have hframeslist :
      (Trajectory.mk (WriteTrajectory.write ⟨[]⟩ ⟨pos, tops, cell⟩).1.content
        0 none none).frames = [engineFrameToXYZ ⟨pos, tops, cell⟩] := by
    unfold Trajectory.frames
    rw [show (Trajectory.mk (WriteTrajectory.write ⟨[]⟩ ⟨pos, tops, cell⟩).1.content
      0 none none).content = (WriteTrajectory.write ⟨[]⟩ ⟨pos, tops, cell⟩).1.content
      from rfl]
    rw [hw, hframes]
    rfl
  have hrec := engineFrameToXYZ_recover tops pos hlen cell
  unfold Trajectory.read
  rw [hframeslist]
  show Except.ok
      ((Trajectory.mk _ 0 none none).mkFrame (engineFrameToXYZ ⟨pos, tops, cell⟩), _) = _
  unfold Trajectory.mkFrame
  simp only [Option.getD_none]
  rw [hrec.1, hrec.2]

theorem xyz_write_read_roundtrip_witness :
    (List.replicate 4 ⟨"X".data⟩ : EngineTopology).length =
        (List.replicate 4 ((⟨1, 0⟩ : Dec), (⟨2, 0⟩ : Dec), (⟨3, 0⟩ : Dec))).length ∧
    (Trajectory.mk (WriteTrajectory.write ⟨[]⟩ sampleEngineFrame1).1.content 0 none none).read =
      .ok (⟨sampleEngineFrame1.positions, sampleEngineFrame1.topology, infiniteCell⟩,
        Trajectory.mk (WriteTrajectory.write ⟨[]⟩ sampleEngineFrame1).1.content 1 none none) :=
  ⟨by decide, xyz_write_read_roundtrip sampleEngineFrame1 (by decide) (by decide)⟩

/-- C2: for every step index `n < nsteps()`, `read_step n` on a freshly
opened (cursor-zero) read-mode trajectory returns a frame equal in
content to the one obtained by calling `read()` n+1 times sequentially
from the start of the same file. -/
theorem read_step_eq_sequential_read (t : Trajectory) (n : Nat)
    (hc : t.cursor = 0) (hn : n < t.nsteps) :
    (t.read_step n).map Prod.fst = (t.readTimes n).map Prod.fst := by
  have hlt : n < t.frames.length := hn
  obtain ⟨f, hf⟩ : ∃ f, t.frames[n]? = some f := ⟨_, List.getElem?_eq_getElem hlt⟩
  have h1 : t.read_step n = .ok (t.mkFrame f, { t with cursor := n + 1 }) := by
    unfold Trajectory.read_step
    rw [hf]
  have h2 := readTimes_ok n t f (by rw [hc, Nat.zero_add]; exact hf)
  rw [h1, h2]
  rfl

theorem read_step_eq_sequential_read_witness :
    (Trajectory.mk (writeFile [sampleFrame4, sampleFrame6]) 0 none none).cursor = 0 ∧
    1 < (Trajectory.mk (writeFile [sampleFrame4, sampleFrame6]) 0 none none).nsteps ∧
    ((Trajectory.mk (writeFile [sampleFrame4, sampleFrame6]) 0 none none).read_step 1).map
        Prod.fst =
      ((Trajectory.mk (writeFile [sampleFrame4, sampleFrame6]) 0 none none).readTimes 1).map
        Prod.fst :=
  ⟨rfl, by decide,
    read_step_eq_sequential_read (Trajectory.mk (writeFile [sampleFrame4, sampleFrame6])
      0 none none) 1 rfl (by decide)⟩

/-- C3: writing two frames with atom counts 4 and 6 to a new XYZ file
produces exactly the §6 text layout — per frame a decimal atom-count
line, the fixed comment line, one `<name> <x> <y> <z>` line per atom,
frames concatenated with no separator and one trailing newline. -/
theorem write_two_frames_exact_content :
    (((WriteTrajectory.mk []).write sampleEngineFrame1).1.write sampleEngineFrame2).1.content =
      ("4\nWritten by Chemharp\nX 1 2 3\nX 1 2 3\nX 1 2 3\nX 1 2 3\n" ++
        "6\nWritten by Chemharp\nX 4 5 6\nX 4 5 6\nX 4 5 6\nX 4 5 6\nX 4 5 6\nX 4 5 6\n").data := by
  decide

/-- C5: for every well-formed file content, `nsteps()` of a read-mode
trajectory opened on it equals the number of frame blocks actually
present in the file; instantiated at a 100-frame file by the witness. -/
theorem nsteps_counts_frame_blocks (fs : List XYZFrame) (hwf : wfFrames fs = true) :
    (Trajectory.mk (writeFile fs) 0 none none).nsteps = fs.length := by
  unfold Trajectory.nsteps Trajectory.frames
  show ((parseFrames (splitOnChar nlChar (writeFile fs))).getD []).length = fs.length
  rw [parseFrames_writeFile fs hwf]
  rfl

theorem nsteps_counts_frame_blocks_witness :
    (Trajectory.mk (writeFile (List.replicate 100 sampleFrame4)) 0 none none).nsteps = 100 := by
  have h := nsteps_counts_frame_blocks (List.replicate 100 sampleFrame4) (by decide)
  simpa using h

/-- C6: opening a path with no extension and no explicit format name
fails with a FormatError carrying exactly the "file at '<path>' does not
have an extension, provide a format name to read it" message; that same
message becomes the process-wide last error and is appended to the
messages delivered to the installed warning callback, whether or not the
callback itself raises. -/
theorem open_no_extension_format_error (path content : List Char) (d : Diagnostics)
    (h : path.contains dotChar = false) :
    openTrajectory path none content d =
      (.error (.formatError (noExtensionMsg path)),
        ⟨noExtensionMsg path, d.warnings ++ [noExtensionMsg path], d.callbackRaises⟩) := by
  unfold openTrajectory extensionOf
  rw [h]
  rfl

theorem open_no_extension_format_error_witness :
    ("noextention".data.contains dotChar = false) ∧
    openTrajectory "noextention".data none [] ⟨[], [], true⟩ =
      (.error (.formatError (noExtensionMsg "noextention".data)),
        ⟨noExtensionMsg "noextention".data, [] ++ [noExtensionMsg "noextention".data], true⟩) :=
  ⟨by decide,
    open_no_extension_format_error "noextention".data [] ⟨[], [], true⟩ (by decide)⟩

def flatArray : NpArray := ⟨[4], DType.float32, [0, 0, 0, 0]⟩

def emptyFrame : Frame :=
  ⟨⟨[0, 3], DType.float32, []⟩, ⟨[0, 3], DType.float32, []⟩⟩

def badShapeArray : NpArray := ⟨[2, 4], DType.float32, [0, 0, 0, 0, 0, 0, 0, 0]⟩

def threeDimArray : NpArray := ⟨[2, 3, 4], DType.float32, []⟩

/-- C7 counterexample: a one-dimensional float32 array has a shape that
is not N×3, yet `set_positions` raises IndexError (from the unguarded
`shape[1]` access), not the claimed ArgumentError. -/
theorem set_positions_one_dim_not_argument_error :
    shapeIsNx3 flatArray.shape = false ∧
    flatArray.dtype = DType.float32 ∧
    emptyFrame.set_positions flatArray =
      (emptyFrame, some (PyExc.indexError tupleIndexMsg)) := by
  decide

/-- C7 (amended): for every input array with at least two shape entries
whose second entry is not 3 or whose dtype is not float32,
`set_positions` (and likewise `set_velocities`) fails with ArgumentError
and leaves the frame unchanged; arrays with fewer than two dimensions
instead raise IndexError, and arrays of three or more dimensions with
second axis 3 and dtype float32 pass validation. -/
theorem set_positions_invalid_argument_error (f : Frame) (arr : NpArray)
    (d0 d1 : Nat) (rest : List Nat) (hshape : arr.shape = d0 :: d1 :: rest)
    (hbad : d1 ≠ 3 ∨ arr.dtype ≠ DType.float32) :
    ((f.set_positions arr).1 = f ∧
      ((f.set_positions arr).2 = some (PyExc.argumentError positionsShapeMsg) ∨
        (f.set_positions arr).2 = some (PyExc.argumentError positionsDtypeMsg))) ∧
    ((f.set_velocities arr).1 = f ∧
      ((f.set_velocities arr).2 = some (PyExc.argumentError velocitiesShapeMsg) ∨
        (f.set_velocities arr).2 = some (PyExc.argumentError velocitiesDtypeMsg))) := by
  simp only [Frame.set_positions, Frame.set_velocities, hshape]
  by_cases h3 : d1 ≠ 3
  · rw [if_pos h3, if_pos h3]
    exact ⟨⟨rfl, Or.inl rfl⟩, ⟨rfl, Or.inl rfl⟩⟩
  · have hdt : arr.dtype ≠ DType.float32 := by tauto
    rw [if_neg h3, if_neg h3, if_pos hdt, if_pos hdt]
    exact ⟨⟨rfl, Or.inr rfl⟩, ⟨rfl, Or.inr rfl⟩⟩

theorem set_positions_invalid_argument_error_witness :
    badShapeArray.shape = 2 :: 4 :: [] ∧
    ((emptyFrame.set_positions badShapeArray).1 = emptyFrame ∧
      ((emptyFrame.set_positions badShapeArray).2 =
          some (PyExc.argumentError positionsShapeMsg) ∨
        (emptyFrame.set_positions badShapeArray).2 =
          some (PyExc.argumentError positionsDtypeMsg))) ∧
    ((emptyFrame.set_velocities badShapeArray).1 = emptyFrame ∧
      ((emptyFrame.set_velocities badShapeArray).2 =
          some (PyExc.argumentError velocitiesShapeMsg) ∨
        (emptyFrame.set_velocities badShapeArray).2 =
          some (PyExc.argumentError velocitiesDtypeMsg))) :=
  ⟨rfl, set_positions_invalid_argument_error emptyFrame badShapeArray 2 4 [] rfl
    (Or.inl (by decide))⟩

/-- C8: in write or append mode, `write(frame)` with a topology atom
count different from the number of position rows fails with
ArgumentError and emits no bytes: the file state is returned unchanged. -/
theorem write_mismatch_emits_no_bytes (t : WriteTrajectory) (f : EngineFrame)
    (h : f.topology.length ≠ f.positions.length) :
    t.write f = (t, some (ChemErr.argumentError mismatchMsg)) := by
  unfold WriteTrajectory.write
  rw [if_neg h]

def mismatchFrame : EngineFrame :=
  ⟨[(⟨1, 0⟩, ⟨2, 0⟩, ⟨3, 0⟩)], List.replicate 2 ⟨"X".data⟩, infiniteCell⟩

theorem write_mismatch_emits_no_bytes_witness :
    mismatchFrame.topology.length ≠ mismatchFrame.positions.length ∧
    (WriteTrajectory.mk "6\nprevious content\n".data).write mismatchFrame =
      (WriteTrajectory.mk "6\nprevious content\n".data,
        some (ChemErr.argumentError mismatchMsg)) :=
  ⟨by decide,
    write_mismatch_emits_no_bytes ⟨"6\nprevious content\n".data⟩ mismatchFrame (by decide)⟩

/-- C9: installing a cell or topology override on a read-mode trajectory
never mutates the underlying file content, and every frame subsequently
returned by `read()` or `read_step(n)` from a trajectory carrying the
override has exactly the override cell (respectively topology); reading
preserves both the content and the installed overrides, so the same holds
for all later reads. -/
theorem overrides_apply_to_read_frames (t t1 : Trajectory) (c : UnitCell)
    (top : EngineTopology) (n : Nat)
    (hcell : t1.cellOverride = some c) (htop : t1.topologyOverride = some top) :
    (t.set_cell c).content = t.content ∧
    (t.set_topology top).content = t.content ∧
    (t.set_cell c).cellOverride = some c ∧
    (t.set_topology top).topologyOverride = some top ∧
    (∀ fr t2, t1.read = .ok (fr, t2) →
      fr.cell = c ∧ fr.topology = top ∧ t2.content = t1.content ∧
        t2.cellOverride = some c ∧ t2.topologyOverride = some top) ∧
    (∀ fr t2, t1.read_step n = .ok (fr, t2) →
      fr.cell = c ∧ fr.topology = top ∧ t2.content = t1.content ∧
        t2.cellOverride = some c ∧ t2.topologyOverride = some top) := by
  refine ⟨rfl, rfl, rfl, rfl, ?_, ?_⟩
  · intro fr t2 hread
    unfold Trajectory.read at hread
    cases hf : t1.frames[t1.cursor]? with
    | none =>
      rw [hf] at hread
      exact absurd hread (by simp)
    | some f =>
      rw [hf] at hread
      simp only [Except.ok.injEq, Prod.mk.injEq] at hread
      obtain ⟨hfr, ht2⟩ := hread
      subst hfr
      subst ht2
      refine ⟨?_, ?_, rfl, hcell, htop⟩
      · show t1.cellOverride.getD infiniteCell = c
        rw [hcell]
        rfl
      · show t1.topologyOverride.getD (xyzTopology f) = top
        rw [htop]
        rfl
  · intro fr t2 hread
    unfold Trajectory.read_step at hread
    cases hf : t1.frames[n]? with
    | none =>
      rw [hf] at hread
      exact absurd hread (by simp)
    | some f =>
      rw [hf] at hread
      simp only [Except.ok.injEq, Prod.mk.injEq] at hread
      obtain ⟨hfr, ht2⟩ := hread
      subst hfr
      subst ht2
      refine ⟨?_, ?_, rfl, hcell, htop⟩
      · show t1.cellOverride.getD infiniteCell = c
        rw [hcell]
        rfl
      · show t1.topologyOverride.getD (xyzTopology f) = top
        rw [htop]
        rfl

instance {ε α : Type} [DecidableEq ε] [DecidableEq α] : DecidableEq (Except ε α) :=
  fun x y =>
    match x, y with
    | .ok a, .ok b => if h : a = b then isTrue (by rw [h]) else isFalse (by simp [h])
    | .error a, .error b => if h : a = b then isTrue (by rw [h]) else isFalse (by simp [h])
    | .ok _, .error _ => isFalse (by simp)
    | .error _, .ok _ => isFalse (by simp)

def cell30 : UnitCell := ⟨⟨30, 0⟩, ⟨30, 0⟩, ⟨30, 0⟩⟩

def topCs : EngineTopology := List.replicate 4 ⟨"Cs".data⟩

def overrideTraj : Trajectory := ⟨writeFile [sampleFrame4], 0, some cell30, some topCs⟩

def overrideReadFrame : EngineFrame := ⟨xyzPositions sampleFrame4, topCs, cell30⟩

def overrideTraj2 : Trajectory := ⟨writeFile [sampleFrame4], 1, some cell30, some topCs⟩

theorem overrides_apply_to_read_frames_witness :
    overrideReadFrame.cell = cell30 ∧ overrideReadFrame.topology = topCs ∧
    overrideTraj2.content = overrideTraj.content ∧
    overrideTraj2.cellOverride = some cell30 ∧
    overrideTraj2.topologyOverride = some topCs :=
  (overrides_apply_to_read_frames overrideTraj overrideTraj cell30 topCs 0
      rfl rfl).2.2.2.2.1
    overrideReadFrame overrideTraj2 (by decide)

/-- C10: `set_positions` and `set_velocities` validate only the second
entry of the shape tuple and the dtype: any array with fewer than two
shape entries raises IndexError from the unguarded `shape[1]` access
(not the spec's ArgumentError), while any array of three or more
dimensions whose second axis has length 3 and whose dtype is float32
passes validation and is forwarded to the native call. -/
theorem shape_validation_second_entry_only (f : Frame) (arr : NpArray) :
    (arr.shape.length < 2 →
      f.set_positions arr = (f, some (PyExc.indexError tupleIndexMsg)) ∧
      f.set_velocities arr = (f, some (PyExc.indexError tupleIndexMsg))) ∧
    (∀ d0 d1 d2 rest, arr.shape = d0 :: d1 :: d2 :: rest → d1 = 3 →
      arr.dtype = DType.float32 →
      f.set_positions arr = ({ f with nativePositions := arr }, none) ∧
      f.set_velocities arr = ({ f with nativeVelocities := arr }, none)) := by
  constructor
  · intro hlen
    cases hs : arr.shape with
    | nil =>
      simp only [Frame.set_positions, Frame.set_velocities, hs]
      refine ⟨?_, ?_⟩ <;> trivial
    | cons a tail =>
      cases tail with
      | nil =>
        simp only [Frame.set_positions, Frame.set_velocities, hs]
        refine ⟨?_, ?_⟩ <;> trivial
      | cons b t2 =>
        rw [hs] at hlen
        simp only [List.length_cons] at hlen
        omega
  · intro d0 d1 d2 rest hshape h3 hdt
    subst h3
    have h33 : ¬((3 : Nat) ≠ 3) := fun hne => hne rfl
    have hft : ¬(arr.dtype ≠ DType.float32) := fun hne => hne hdt
    simp only [Frame.set_positions, Frame.set_velocities, hshape]
    rw [if_neg h33, if_neg h33, if_neg hft, if_neg hft]
    exact ⟨rfl, rfl⟩

theorem shape_validation_second_entry_only_witness :
    (emptyFrame.set_positions flatArray =
        (emptyFrame, some (PyExc.indexError tupleIndexMsg)) ∧
      emptyFrame.set_velocities flatArray =
        (emptyFrame, some (PyExc.indexError tupleIndexMsg))) ∧
    (emptyFrame.set_positions threeDimArray =
        ({ emptyFrame with nativePositions := threeDimArray }, none) ∧
      emptyFrame.set_velocities threeDimArray =
        ({ emptyFrame with nativeVelocities := threeDimArray }, none)) :=
  ⟨(shape_validation_second_entry_only emptyFrame flatArray).1 (by decide),
    (shape_validation_second_entry_only emptyFrame threeDimArray).2 2 3 4 [] rfl rfl rfl⟩
